import Mathlib

/-!
Verification of the playlist synchronization and bulk-mutation engine of a
Spotify playlist manager, against its natural-language specification.

The operations verified here live in src/main/playlist-operations.ts
(deletePlaylists, mergePlaylists, fixBrokenTracks, removeDuplicates,
bulkRename), src/main/playlist-sync.ts (syncAllPlaylists,
convertToLocalPlaylist) and src/main/database.ts (PlaylistDatabase).
JavaScript values coming from the remote API are modelled with Option
(none = null/undefined) and JavaScript string truthiness is modelled
explicitly (the empty string is falsy). The remote client and its
pagination are modelled by handing each operation the full, in-order list
of track items of each playlist (the page loops concatenate pages in
order), and remote failures are modelled by Boolean oracles saying which
remote calls throw. Each operation returns a result structure that also
records the remote calls it issued and the cache state it leaves behind.
-/

namespace SpotifyPP

/-- Truthiness of a JavaScript string that may be null/undefined: both the
absent value and the empty string are falsy. -/
def strTruthy : Option String → Bool
  | none => false
  | some s => s != ""

/-- JavaScript String.prototype.trim, modelled executably: drop whitespace
characters from both ends. -/
def jsTrim (s : String) : String :=
  String.mk (((s.data.dropWhile Char.isWhitespace).reverse.dropWhile
    Char.isWhitespace).reverse)

/-- The track payload of a playlist track item, as the engine reads it:
a nullable catalog id, an optional is-playable flag, and a URI that is read
defensively (the source guards every access). Fields the verified claims do
not read (name, artists, duration) are omitted. -/
structure SpotifyTrackObj where
  id : Option String
  is_playable : Option Bool
  uri : Option String
deriving DecidableEq

/-- One item of a playlist track page: the track payload may be null. -/
structure PlaylistItem where
  track : Option SpotifyTrackObj
deriving DecidableEq

/-- The URI a merge/dedupe loop iteration uses, when the item is not
skipped. The source skips an item when its track is falsy or its track URI
is falsy: the guard is the same in mergePlaylists and removeDuplicates. -/
def extractUri (item : PlaylistItem) : Option String :=
  match item.track with
  | none => none
  | some t =>
    match t.uri with
    | none => none
    | some u => if u = "" then none else some u

/-- fixBrokenTracks classification of one track item (playlist-operations.ts,
the unlinkedTracks filter): the item is unlinked when the track is falsy, or
its id is null, or its is_playable flag is strictly equal to false, or its
URI is falsy. -/
def isUnlinked (item : PlaylistItem) : Bool :=
  match item.track with
  | none => true
  | some t => t.id.isNone || (t.is_playable == some false) || !(strTruthy t.uri)

/-- C3: a fetched playlist track item is classified unlinked by
fixBrokenTracks if and only if its track payload is absent, or the track
catalog id is null, or the is_playable flag is explicitly false, or the
track URI is missing (absent or the empty string); an item satisfying none
of the four conditions is not classified unlinked. -/
theorem unlinked_classification_iff (item : PlaylistItem) :
    isUnlinked item = true ↔
      (item.track = none ∨
        ∃ t, item.track = some t ∧
          (t.id = none ∨ t.is_playable = some false ∨
            t.uri = none ∨ t.uri = some "")) := by
  constructor
  · intro h
    cases htr : item.track with
    | none => exact Or.inl rfl
    | some t =>
      refine Or.inr ⟨t, rfl, ?_⟩
      rw [isUnlinked, htr] at h
      simp only [Bool.or_eq_true, Option.isNone_iff_eq_none, beq_iff_eq,
        Bool.not_eq_true'] at h
      rcases h with (h | h) | h
      · exact Or.inl h
      · exact Or.inr (Or.inl h)
      · cases huri : t.uri with
        | none => exact Or.inr (Or.inr (Or.inl rfl))
        | some u =>
          rw [huri] at h
          simp only [strTruthy, bne_eq_false_iff_eq] at h
          exact Or.inr (Or.inr (Or.inr (by rw [h])))
  · intro h
    rcases h with h | ⟨t, ht, h⟩
    · rw [isUnlinked, h]
    · rw [isUnlinked, ht]
      rcases h with h | h | h | h
      · simp [h]
      · simp [h]
      · simp [strTruthy, h]
      · simp [strTruthy, h]

/-- Modelled from the spec: the Rate Limit Classifier (spec section 4.2) is
not among the repository source files (only its commit history mentions a
RateLimitInfo type), so the error shape it inspects is modelled from the
spec: a failed remote call surfaces an optional HTTP status code and an
optional retry-after duration in seconds. -/
structure ApiError where
  statusCode : Option Nat
  retryAfterSeconds : Option Nat
deriving DecidableEq

/-- Modelled from the spec: the classification result, an is-rate-limited
verdict and a human-readable wait message. -/
structure RateLimitInfo where
  isRateLimited : Bool
  waitMessage : String
deriving DecidableEq

/-- Modelled from the spec: the wait message renders the retry-after
duration in hours, minutes or seconds, whichever unit fits. -/
def formatWaitTime (seconds : Nat) : String :=
  if seconds ≥ 3600 then toString (seconds / 3600) ++ " hours"
  else if seconds ≥ 60 then toString (seconds / 60) ++ " minutes"
  else toString seconds ++ " seconds"

/-- Modelled from the spec: the Rate Limit Classifier. A rate-limit
rejection is recognized by the provider-specific too-many-requests status
(HTTP 429); the retry-after value, when present, is turned into a wait
message, and a completely absent retry-after falls back to a generic
wait-a-few-minutes message. The classifier is a total function: it cannot
throw, and any error without the rate-limit status degrades to not rate
limited. -/
def checkRateLimit (e : ApiError) : RateLimitInfo :=
  if e.statusCode == some 429 then
    match e.retryAfterSeconds with
    | some s =>
        ⟨true, "Rate limited. Please wait " ++ formatWaitTime s ++
          " before trying again."⟩
    | none => ⟨true, "Rate limited. Please wait a few minutes before trying again."⟩
  else ⟨false, ""⟩

/-- C9: an error carrying the rate-limit status and a retry-after of 120
seconds is classified rate limited with a wait message that names minutes
(2 minutes), not seconds; an error with any other status code is classified
not rate limited; and the classifier is a total function (it never throws:
every input, including one with no retry-after value, yields a verdict). -/
theorem rateLimit_classifier_spec (e : ApiError) :
    (e.statusCode = some 429 → e.retryAfterSeconds = some 120 →
      (checkRateLimit e).isRateLimited = true ∧
      (checkRateLimit e).waitMessage =
        "Rate limited. Please wait 2 minutes before trying again.") ∧
    (e.statusCode ≠ some 429 → (checkRateLimit e).isRateLimited = false) ∧
    (e.statusCode = some 429 → e.retryAfterSeconds = none →
      (checkRateLimit e).waitMessage =
        "Rate limited. Please wait a few minutes before trying again.") := by
  refine ⟨?_, ?_, ?_⟩
  · intro hs hr
    rw [checkRateLimit, hs, hr]
    exact ⟨rfl, rfl⟩
  · intro hs
    rw [checkRateLimit]
    simp only [beq_iff_eq]
    rw [if_neg hs]
  · intro hs hr
    rw [checkRateLimit, hs, hr]
    rfl

/-- The per-playlist track collection loop of mergePlaylists: walk the
items of one source playlist in order, skip items whose track or track URI
is falsy, and either push every URI (dedupe off) or push a URI only when it
is not in the seen set (dedupe on, in which case the URI is added to the
seen set). Returns the pushed URIs in push order together with the seen set
after the loop. The seen set of the source (a JS Set) is modelled as a list
queried by membership. -/
def mergeCollectItems (dedupe : Bool) :
    List PlaylistItem → List String → List String × List String
  | [], seen => ([], seen)
  | item :: rest, seen =>
    match extractUri item with
    | none => mergeCollectItems dedupe rest seen
    | some uri =>
      if dedupe then
        if seen.contains uri then mergeCollectItems dedupe rest seen
        else
          let r := mergeCollectItems dedupe rest (uri :: seen)
          (uri :: r.1, r.2)
      else
        let r := mergeCollectItems dedupe rest seen
        (uri :: r.1, r.2)

/-- The outer loop of mergePlaylists over the source playlists in input
order: the seen set is threaded across sources, so dedupe is global to the
whole merged sequence, not per source. Each source playlist is given as
its full in-order item list (the inner page loop concatenates pages). -/
def mergeCollectSources (dedupe : Bool) :
    List (List PlaylistItem) → List String → List String × List String
  | [], seen => ([], seen)
  | items :: rest, seen =>
    let r := mergeCollectItems dedupe items seen
    let s := mergeCollectSources dedupe rest r.2
    (r.1 ++ s.1, s.2)

/-- JavaScript String.prototype.split with a one-character separator,
modelled executably on the character list: the empty string yields one
empty field, and every separator occurrence starts a new field. -/
def splitOnChar (c : Char) : List Char → List (List Char)
  | [] => [[]]
  | a :: rest =>
    let r := splitOnChar c rest
    if a = c then [] :: r
    else
      match r with
      | [] => [[a]]
      | h :: t => (a :: h) :: t

/-- The well-formed-track-URI filter applied by mergePlaylists and
removeDuplicates before creating the target playlist: the URI is truthy,
starts with the spotify-track prefix, and splits on colons into exactly
three parts. -/
def isValidTrackUri (uri : String) : Bool :=
  uri != "" && List.isPrefixOf "spotify:track:".data uri.data &&
    (splitOnChar ':' uri.data).length == 3

/-- The batched-append chunking loop with explicit fuel: slices of at most
100 URIs (the provider bound on one add-tracks call), in original order.
The fuel only bounds the recursion; chunk100 supplies enough. -/
def chunkGo : Nat → List String → List (List String)
  | _, [] => []
  | 0, _ => []
  | n + 1, l => l.take 100 :: chunkGo n (l.drop 100)

/-- The batched-append chunking of mergePlaylists, removeDuplicates and
fixBrokenTracks: batches of 100, last batch shorter. -/
def chunk100 (l : List String) : List (List String) :=
  chunkGo l.length l

/-- Result of a merge run: whether it succeeded, whether a remote playlist
was created, the per-batch add-tracks calls issued on it, and the reported
track count. -/
structure MergeResult where
  success : Bool
  created : Bool
  appendedBatches : List (List String)
  trackCount : Nat
deriving DecidableEq

/-- mergePlaylists (playlist-operations.ts): fewer than two sources or a
blank target name fail up front; otherwise the URIs are collected from all
sources in order (dedupe per the flag), filtered to well-formed track URIs,
and if none survive the operation fails without creating a playlist; else
the playlist is created and the valid URIs are appended in batches of 100.
The sources list holds the track items of each source playlist in
source-id order; the delete-source flag only triggers a later
deletePlaylists call and does not affect the appended sequence. -/
def mergePlaylists (sources : List (List PlaylistItem)) (targetName : String)
    (dedupe : Bool) : MergeResult :=
  if sources.length < 2 then ⟨false, false, [], 0⟩
  else if jsTrim targetName = "" then ⟨false, false, [], 0⟩
  else
    let allTrackUris := (mergeCollectSources dedupe sources []).1
    let validTrackUris := allTrackUris.filter (fun u => isValidTrackUri u)
    if validTrackUris.isEmpty then ⟨false, false, [], 0⟩
    else ⟨true, true, chunk100 validTrackUris, validTrackUris.length⟩

/-- Specification-side description of global first-occurrence
deduplication: keep an element iff it is not in the seen set, accumulating
seen elements left to right. The merge theorem compares the sequence the
code appends against this function. -/
def firstOccurrences : List String → List String → List String
  | [], _ => []
  | x :: xs, seen =>
    if seen.contains x then firstOccurrences xs seen
    else x :: firstOccurrences xs (x :: seen)

theorem firstOccurrences_congr (l : List String) (s s' : List String)
    (h : ∀ x, x ∈ s ↔ x ∈ s') :
    firstOccurrences l s = firstOccurrences l s' := by
  induction l generalizing s s' with
  | nil => rfl
  | cons x xs ih =>
    rw [firstOccurrences, firstOccurrences]
    by_cases hx : x ∈ s
    · rw [if_pos (by simpa using hx), if_pos (by simpa using (h x).mp hx)]
      exact ih s s' h
    · rw [if_neg (by simpa using hx), if_neg (by simpa using fun hx2 => hx ((h x).mpr hx2))]
      refine congrArg (x :: ·) (ih _ _ ?_)
      intro y
      simp only [List.mem_cons]
      exact or_congr Iff.rfl (h y)

theorem mem_firstOccurrences (l : List String) (seen : List String) (x : String) :
    x ∈ firstOccurrences l seen ↔ x ∈ l ∧ x ∉ seen := by
  induction l generalizing seen with
  | nil => simp [firstOccurrences]
  | cons a as ih =>
    rw [firstOccurrences]
    by_cases ha : a ∈ seen
    · rw [if_pos (by simpa using ha), ih]
      constructor
      · rintro ⟨hx, hs⟩
        exact ⟨List.mem_cons_of_mem a hx, hs⟩
      · rintro ⟨hx, hs⟩
        rcases List.mem_cons.mp hx with h | h
        · exact absurd (h ▸ ha) hs
        · exact ⟨h, hs⟩
    · rw [if_neg (by simpa using ha)]
      simp only [List.mem_cons, ih]
      constructor
      · rintro (h | ⟨hx, hs⟩)
        · exact ⟨Or.inl h, h ▸ ha⟩
        · exact ⟨Or.inr hx, fun hmem => hs (Or.inr hmem)⟩
      · rintro ⟨h | h, hs⟩
        · exact Or.inl h
        · by_cases hxa : x = a
          · exact Or.inl hxa
          · exact Or.inr ⟨h, by simp [List.mem_cons, hxa, hs]⟩

theorem firstOccurrences_nodup (l : List String) (seen : List String) :
    (firstOccurrences l seen).Nodup := by
  induction l generalizing seen with
  | nil => exact List.nodup_nil
  | cons a as ih =>
    rw [firstOccurrences]
    by_cases ha : a ∈ seen
    · rw [if_pos (by simpa using ha)]
      exact ih seen
    · rw [if_neg (by simpa using ha)]
      refine List.nodup_cons.mpr ⟨?_, ih (a :: seen)⟩
      intro hmem
      exact ((mem_firstOccurrences as (a :: seen) a).mp hmem).2 (List.mem_cons_self a seen)

theorem firstOccurrences_append (a b : List String) (seen seen' : List String)
    (h : ∀ x, x ∈ seen' ↔ x ∈ seen ∨ x ∈ a) :
    firstOccurrences (a ++ b) seen =
      firstOccurrences a seen ++ firstOccurrences b seen' := by
  induction a generalizing seen with
  | nil =>
    rw [List.nil_append, firstOccurrences, List.nil_append]
    exact firstOccurrences_congr b seen seen' (fun x => by simp [h x])
  | cons x xs ih =>
    rw [List.cons_append, firstOccurrences, firstOccurrences]
    by_cases hx : x ∈ seen
    · rw [if_pos (by simpa using hx), if_pos (by simpa using hx)]
      refine ih seen ?_
      intro y
      rw [h y]
      simp only [List.mem_cons]
      constructor
      · rintro (hy | hy | hy)
        · exact Or.inl hy
        · exact Or.inl (hy ▸ hx)
        · exact Or.inr hy
      · rintro (hy | hy)
        · exact Or.inl hy
        · exact Or.inr (Or.inr hy)
    · rw [if_neg (by simpa using hx), if_neg (by simpa using hx), List.cons_append]
      refine congrArg (x :: ·) (ih (x :: seen) ?_)
      intro y
      rw [h y]
      simp only [List.mem_cons]
      tauto

theorem firstOccurrences_filter (p : String → Bool) (l : List String)
    (s s' : List String) (h : ∀ x, p x = true → (x ∈ s ↔ x ∈ s')) :
    (firstOccurrences l s).filter p = firstOccurrences (l.filter p) s' := by
  induction l generalizing s s' with
  | nil => rfl
  | cons a as ih =>
    rw [firstOccurrences, List.filter_cons]
    by_cases hp : p a = true
    · rw [if_pos hp, firstOccurrences]
      by_cases ha : a ∈ s
      · rw [if_pos (by simpa using ha), if_pos (by simpa using (h a hp).mp ha)]
        exact ih s s' h
      · rw [if_neg (by simpa using ha),
          if_neg (by simpa using fun h2 => ha ((h a hp).mpr h2)), List.filter_cons_of_pos hp]
        refine congrArg (a :: ·) (ih (a :: s) (a :: s') ?_)
        intro y hy
        simp only [List.mem_cons]
        exact or_congr Iff.rfl (h y hy)
    · rw [if_neg hp]
      by_cases ha : a ∈ s
      · rw [if_pos (by simpa using ha)]
        exact ih s s' h
      · rw [if_neg (by simpa using ha), List.filter_cons_of_neg (by simpa using hp)]
        refine (ih (a :: s) s' ?_)
        intro y hy
        simp only [List.mem_cons]
        constructor
        · rintro (rfl | hmem)
          · exact absurd hy (by simpa using hp)
          · exact (h y hy).mp hmem
        · intro hmem
          exact Or.inr ((h y hy).mpr hmem)

theorem mergeCollectItems_cons_none (dedupe : Bool) (item : PlaylistItem)
    (rest : List PlaylistItem) (seen : List String) (h : extractUri item = none) :
    mergeCollectItems dedupe (item :: rest) seen = mergeCollectItems dedupe rest seen := by
  rw [mergeCollectItems, h]

theorem mergeCollectItems_cons_nodedupe (item : PlaylistItem)
    (rest : List PlaylistItem) (seen : List String) (uri : String)
    (h : extractUri item = some uri) :
    mergeCollectItems false (item :: rest) seen =
      (uri :: (mergeCollectItems false rest seen).1,
        (mergeCollectItems false rest seen).2) := by
  rw [mergeCollectItems, h]
  rfl

theorem mergeCollectItems_cons_seen (item : PlaylistItem)
    (rest : List PlaylistItem) (seen : List String) (uri : String)
    (h : extractUri item = some uri) (hc : seen.contains uri = true) :
    mergeCollectItems true (item :: rest) seen = mergeCollectItems true rest seen := by
  rw [mergeCollectItems, h]
  simp only [hc]
  rfl

theorem mergeCollectItems_cons_fresh (item : PlaylistItem)
    (rest : List PlaylistItem) (seen : List String) (uri : String)
    (h : extractUri item = some uri) (hc : seen.contains uri = false) :
    mergeCollectItems true (item :: rest) seen =
      (uri :: (mergeCollectItems true rest (uri :: seen)).1,
        (mergeCollectItems true rest (uri :: seen)).2) := by
  rw [mergeCollectItems, h]
  simp only [hc]
  rfl

theorem mergeCollectItems_false (items : List PlaylistItem) (seen : List String) :
    mergeCollectItems false items seen = (items.filterMap extractUri, seen) := by
  induction items with
  | nil => rfl
  | cons item rest ih =>
    rw [List.filterMap_cons]
    cases h : extractUri item with
    | none =>
      rw [mergeCollectItems_cons_none false item rest seen h]
      exact ih
    | some uri =>
      rw [mergeCollectItems_cons_nodedupe item rest seen uri h, ih]

theorem mergeCollectSources_false (sources : List (List PlaylistItem))
    (seen : List String) :
    mergeCollectSources false sources seen =
      (sources.flatten.filterMap extractUri, seen) := by
  induction sources generalizing seen with
  | nil => rfl
  | cons items rest ih =>
    rw [mergeCollectSources, mergeCollectItems_false, ih,
      List.flatten_cons, List.filterMap_append]

theorem mergeCollectItems_true (items : List PlaylistItem) (seen : List String) :
    (mergeCollectItems true items seen).1 =
        firstOccurrences (items.filterMap extractUri) seen ∧
      (∀ x, x ∈ (mergeCollectItems true items seen).2 ↔
        x ∈ seen ∨ x ∈ items.filterMap extractUri) := by
  induction items generalizing seen with
  | nil => simp [mergeCollectItems, firstOccurrences]
  | cons item rest ih =>
    cases h : extractUri item with
    | none =>
      rw [mergeCollectItems_cons_none true item rest seen h, List.filterMap_cons, h]
      exact ih seen
    | some uri =>
      rw [List.filterMap_cons, h, firstOccurrences]
      by_cases hm : uri ∈ seen
      · rw [mergeCollectItems_cons_seen item rest seen uri h (by simpa using hm),
          if_pos (by simpa using hm)]
        refine ⟨(ih seen).1, ?_⟩
        intro x
        rw [(ih seen).2 x, List.mem_cons]
        constructor
        · rintro (hx | hx)
          · exact Or.inl hx
          · exact Or.inr (Or.inr hx)
        · rintro (hx | hx | hx)
          · exact Or.inl hx
          · exact Or.inl (hx ▸ hm)
          · exact Or.inr hx
      · rw [mergeCollectItems_cons_fresh item rest seen uri h (by simpa using hm),
          if_neg (by simpa using hm)]
        refine ⟨congrArg (uri :: ·) (ih (uri :: seen)).1, ?_⟩
        intro x
        rw [List.mem_cons]
        constructor
        · intro hx
          rcases ((ih (uri :: seen)).2 x).mp hx with hx2 | hx2
          · rcases List.mem_cons.mp hx2 with hx3 | hx3
            · exact Or.inr (Or.inl hx3)
            · exact Or.inl hx3
          · exact Or.inr (Or.inr hx2)
        · intro hx
          refine ((ih (uri :: seen)).2 x).mpr ?_
          rcases hx with hx | hx | hx
          · exact Or.inl (List.mem_cons_of_mem uri hx)
          · exact Or.inl (hx ▸ List.mem_cons_self uri seen)
          · exact Or.inr hx

theorem mergeCollectSources_true (sources : List (List PlaylistItem))
    (seen : List String) :
    (mergeCollectSources true sources seen).1 =
        firstOccurrences (sources.flatten.filterMap extractUri) seen ∧
      (∀ x, x ∈ (mergeCollectSources true sources seen).2 ↔
        x ∈ seen ∨ x ∈ sources.flatten.filterMap extractUri) := by
  induction sources generalizing seen with
  | nil => simp [mergeCollectSources, firstOccurrences]
  | cons items rest ih =>
    rw [mergeCollectSources]
    have hitems := mergeCollectItems_true items seen
    have hrest := ih (mergeCollectItems true items seen).2
    rw [List.flatten_cons, List.filterMap_append]
    constructor
    · rw [hitems.1, hrest.1,
        firstOccurrences_append (items.filterMap extractUri)
          (rest.flatten.filterMap extractUri) seen
          (mergeCollectItems true items seen).2 hitems.2]
    · intro x
      rw [hrest.2 x, hitems.2 x, List.mem_append]
      tauto

theorem chunkGo_flatten (n : Nat) (l : List String) (h : l.length ≤ n) :
    (chunkGo n l).flatten = l := by
  induction n generalizing l with
  | zero =>
    have : l = [] := List.length_eq_zero.mp (Nat.le_zero.mp h)
    rw [this, chunkGo]
    rfl
  | succ n ih =>
    cases l with
    | nil => rfl
    | cons a as =>
      have hstep : chunkGo (n + 1) (a :: as) =
          (a :: as).take 100 :: chunkGo n ((a :: as).drop 100) := by
        rw [chunkGo]
        simp
      rw [hstep, List.flatten_cons, ih]
      · exact List.take_append_drop 100 (a :: as)
      · rw [List.length_drop]
        have h2 : (a :: as).length ≤ n + 1 := h
        simp only [List.length_cons] at h2 ⊢
        omega

theorem chunk100_flatten (l : List String) : (chunk100 l).flatten = l :=
  chunkGo_flatten l.length l (Nat.le_refl _)

theorem firstOccurrences_length (l : List String) :
    (firstOccurrences l []).length = l.dedup.length := by
  classical
  have hnd : (firstOccurrences l []).Nodup := firstOccurrences_nodup l []
  have hmem : ∀ x, x ∈ firstOccurrences l [] ↔ x ∈ l := by
    intro x
    rw [mem_firstOccurrences]
    simp
  have hfin : (firstOccurrences l []).toFinset = l.toFinset := by
    ext x
    rw [List.mem_toFinset, List.mem_toFinset, hmem]
  calc (firstOccurrences l []).length
      = (firstOccurrences l []).toFinset.card := (List.toFinset_card_of_nodup hnd).symm
    _ = l.toFinset.card := by rw [hfin]
    _ = l.dedup.length := List.card_toFinset l

/-- C1: for a merge invocation over at least two source playlists with a
non-blank target name and dedupe on, the full sequence of URIs appended to
the newly created playlist (the concatenation of the batched add-tracks
calls) contains no URI more than once, equals the
first-occurrence-per-whole-merged-sequence subsequence of the well-formed
URIs collected across all sources in source-then-track order, and its
length is the number of distinct well-formed track URIs collected across
all sources. -/
theorem merge_dedupe_nodup_and_distinct_count
    (sources : List (List PlaylistItem)) (targetName : String)
    (h2 : 2 ≤ sources.length) (hname : jsTrim targetName ≠ "") :
    ((mergePlaylists sources targetName true).appendedBatches.flatten).Nodup ∧
    (mergePlaylists sources targetName true).appendedBatches.flatten =
      firstOccurrences
        ((mergeCollectSources false sources []).1.filter (fun u => isValidTrackUri u)) [] ∧
    ((mergePlaylists sources targetName true).appendedBatches.flatten).length =
      ((mergeCollectSources false sources []).1.filter
        (fun u => isValidTrackUri u)).dedup.length := by
  classical
  have hlt : ¬ sources.length < 2 := Nat.not_lt.mpr h2
  have hvalid :
      ((mergeCollectSources true sources []).1.filter (fun u => isValidTrackUri u)) =
      firstOccurrences
        ((mergeCollectSources false sources []).1.filter (fun u => isValidTrackUri u)) [] := by
    rw [(mergeCollectSources_true sources []).1, mergeCollectSources_false]
    exact firstOccurrences_filter (fun u => isValidTrackUri u)
      (sources.flatten.filterMap extractUri) [] [] (fun x _ => Iff.rfl)
  rw [mergePlaylists, if_neg hlt, if_neg (by simpa using hname)]
  by_cases hempty :
      ((mergeCollectSources true sources []).1.filter (fun u => isValidTrackUri u)).isEmpty
  · rw [if_pos hempty]
    have hnil :
        ((mergeCollectSources true sources []).1.filter (fun u => isValidTrackUri u)) = [] :=
      List.isEmpty_iff.mp hempty
    have hfil :
        ((mergeCollectSources false sources []).1.filter (fun u => isValidTrackUri u)) = [] := by
      by_contra hne
      rcases List.exists_mem_of_ne_nil _ hne with ⟨x, hx⟩
      have : x ∈ firstOccurrences
          ((mergeCollectSources false sources []).1.filter (fun u => isValidTrackUri u)) [] := by
        rw [mem_firstOccurrences]
        simp [hx]
      rw [← hvalid, hnil] at this
      exact absurd this (List.not_mem_nil x)
    simp [hfil, firstOccurrences]
  · rw [if_neg hempty]
    simp only [chunk100_flatten]
    refine ⟨?_, ?_, ?_⟩
    · rw [hvalid]
      exact firstOccurrences_nodup _ []
    · exact hvalid
    · rw [hvalid, firstOccurrences_length]

/-- Concrete pair of source playlists used to instantiate the merge
theorem: they share a URI, and an invalid and an unlinked entry are mixed
in. -/
def mergeDemoSources : List (List PlaylistItem) :=
  [[⟨some ⟨some "i1", none, some "spotify:track:aaa"⟩⟩,
    ⟨some ⟨some "i2", none, some "spotify:track:bbb"⟩⟩,
    ⟨none⟩],
   [⟨some ⟨some "i3", none, some "spotify:track:aaa"⟩⟩,
    ⟨some ⟨some "i4", none, some "spotify:local:xyz"⟩⟩,
    ⟨some ⟨some "i5", none, some "spotify:track:ccc"⟩⟩]]

/-- Closed instance of the C1 merge theorem at mergeDemoSources. -/
theorem merge_dedupe_nodup_and_distinct_count_app :
    ((mergePlaylists mergeDemoSources "Merged Mix" true).appendedBatches.flatten).Nodup ∧
    (mergePlaylists mergeDemoSources "Merged Mix" true).appendedBatches.flatten =
      firstOccurrences
        ((mergeCollectSources false mergeDemoSources []).1.filter
          (fun u => isValidTrackUri u)) [] ∧
    ((mergePlaylists mergeDemoSources "Merged Mix" true).appendedBatches.flatten).length =
      ((mergeCollectSources false mergeDemoSources []).1.filter
        (fun u => isValidTrackUri u)).dedup.length :=
  merge_dedupe_nodup_and_distinct_count mergeDemoSources "Merged Mix"
    (by decide) (by decide)

/-- The cached playlist record (shared/types.ts LocalPlaylist, the row
shape of the playlists table in database.ts). -/
structure LocalPlaylist where
  spotify_id : String
  name : String
  owner : String
  track_count : Nat
  duration_ms : Nat
  followers : Nat
  is_owner : Bool
  created_at : String
  modified_at : String
  tags : String
  last_synced : Nat
  snapshot_id : String
  unlinked_count : Nat
deriving DecidableEq

/-- State threaded through the per-playlist loop of deletePlaylists: the
ids deleted so far, the ids whose remote unfollow threw, the unfollow calls
issued (in order, failed ones included), and the cache contents. -/
structure DeleteLoopState where
  deletedIds : List String
  failed : List String
  unfollowCalls : List String
  db : List LocalPlaylist
deriving DecidableEq

/-- The deletion loop of deletePlaylists: for each playlist (already
ownership-checked) call remote unfollow; on success remove the cache row
(database.ts deletePlaylist: DELETE WHERE spotify_id = ?) and count it
deleted, on a thrown remote error push the id to failed and continue with
the next playlist. The oracle uf says which unfollow calls throw. -/
def deleteLoop (uf : String → Bool) :
    List LocalPlaylist → List LocalPlaylist → DeleteLoopState
  | [], db => ⟨[], [], [], db⟩
  | p :: rest, db =>
    if uf p.spotify_id then
      let r := deleteLoop uf rest db
      ⟨r.deletedIds, p.spotify_id :: r.failed, p.spotify_id :: r.unfollowCalls, r.db⟩
    else
      let r := deleteLoop uf rest
        (db.filter (fun q => q.spotify_id != p.spotify_id))
      ⟨p.spotify_id :: r.deletedIds, r.failed, p.spotify_id :: r.unfollowCalls, r.db⟩

/-- Result of deletePlaylists, with the remote calls and final cache
recorded. -/
structure DeleteResult where
  success : Bool
  deleted : Nat
  failed : List String
  hasError : Bool
  unfollowCalls : List String
  db : List LocalPlaylist
deriving DecidableEq

/-- deletePlaylists (playlist-operations.ts): an empty id list fails; the
cached records matching the input ids are selected (getAllPlaylists then a
filter by membership); if any selected record is not owner-flagged the
whole batch is rejected with zero deletions, the non-owned ids as the
failed list, and no remote call or cache removal; otherwise the deletion
loop runs over the selected records. Ids with no cached record are never
selected, hence never touched. The history logOperation write does not
affect any returned field and is not modelled. -/
def deletePlaylists (db : List LocalPlaylist) (playlistIds : List String)
    (uf : String → Bool) : DeleteResult :=
  if playlistIds.isEmpty then ⟨false, 0, [], true, [], db⟩
  else
    let playlistsToDelete := db.filter (fun p => playlistIds.contains p.spotify_id)
    let notOwned := playlistsToDelete.filter (fun p => !p.is_owner)
    if notOwned.isEmpty then
      let r := deleteLoop uf playlistsToDelete db
      ⟨r.failed.isEmpty, r.deletedIds.length, r.failed, !r.failed.isEmpty,
        r.unfollowCalls, r.db⟩
    else ⟨false, 0, notOwned.map (fun p => p.spotify_id), true, [], db⟩

/-- C2: a delete batch whose ids are all cached and that contains at least
one non-owned playlist is rejected whole: deleted count 0, no remote
unfollow call, no cache row removed, unsuccessful, and the failed list
holds exactly the ids of the batch whose cached record is not
owner-flagged, however many owned playlists the batch also holds. -/
theorem delete_all_or_nothing_nonowned (db : List LocalPlaylist)
    (playlistIds : List String) (uf : String → Bool)
    (hc : ∀ id ∈ playlistIds, ∃ p ∈ db, p.spotify_id = id)
    (hno : ∃ id ∈ playlistIds, ∃ p ∈ db, p.spotify_id = id ∧ p.is_owner = false) :
    (deletePlaylists db playlistIds uf).deleted = 0 ∧
    (deletePlaylists db playlistIds uf).success = false ∧
    (deletePlaylists db playlistIds uf).unfollowCalls = [] ∧
    (deletePlaylists db playlistIds uf).db = db ∧
    (∀ x, x ∈ (deletePlaylists db playlistIds uf).failed ↔
      x ∈ playlistIds ∧ ∃ p ∈ db, p.spotify_id = x ∧ p.is_owner = false) := by
  classical
  obtain ⟨id0, hid0, p0, hp0, hpid0, hpown0⟩ := hno
  have hne : playlistIds.isEmpty = false := by
    cases playlistIds with
    | nil => exact absurd hid0 (List.not_mem_nil id0)
    | cons a l => rfl
  have hmem0 : p0 ∈ db.filter (fun p => playlistIds.contains p.spotify_id) := by
    rw [List.mem_filter]
    exact ⟨hp0, by rw [hpid0]; exact List.elem_eq_true_of_mem hid0⟩
  have hmem1 : p0 ∈ (db.filter (fun p => playlistIds.contains p.spotify_id)).filter
      (fun p => !p.is_owner) := by
    rw [List.mem_filter]
    exact ⟨hmem0, by rw [hpown0]; rfl⟩
  have hnotempty : ((db.filter (fun p => playlistIds.contains p.spotify_id)).filter
      (fun p => !p.is_owner)).isEmpty = false := by
    cases hfil : (db.filter (fun p => playlistIds.contains p.spotify_id)).filter
        (fun p => !p.is_owner) with
    | nil => rw [hfil] at hmem1; exact absurd hmem1 (List.not_mem_nil p0)
    | cons a l => rfl
  rw [deletePlaylists, if_neg (by rw [hne]; exact Bool.false_ne_true),
    if_neg (by rw [hnotempty]; exact Bool.false_ne_true)]
  refine ⟨rfl, rfl, rfl, rfl, ?_⟩
  intro x
  simp only [List.mem_map, List.mem_filter, Bool.not_eq_eq_eq_not, Bool.not_true]
  constructor
  · rintro ⟨p, ⟨⟨hpdb, hpin⟩, hpnot⟩, hpx⟩
    refine ⟨?_, p, hpdb, hpx, hpnot⟩
    rw [← hpx]
    exact List.mem_of_elem_eq_true hpin
  · rintro ⟨hxin, p, hpdb, hpx, hpnot⟩
    exact ⟨p, ⟨⟨hpdb, by rw [hpx]; exact List.elem_eq_true_of_mem hxin⟩, hpnot⟩, hpx⟩

/-- Concrete cache rows for the delete instances. -/
def lpRow (id : String) (owned : Bool) (tags : String) : LocalPlaylist :=
  ⟨id, "Playlist " ++ id, "owner " ++ id, 3, 0, 0, owned, "", "", tags, 0, "snap", 0⟩

/-- Closed instance of the C2 delete theorem: a batch of one owned and one
non-owned playlist, both cached, is rejected whole. -/
theorem delete_all_or_nothing_nonowned_app :
    (deletePlaylists [lpRow "a" false "", lpRow "b" true ""] ["a", "b"]
      (fun _ => false)).deleted = 0 ∧
    (deletePlaylists [lpRow "a" false "", lpRow "b" true ""] ["a", "b"]
      (fun _ => false)).success = false ∧
    (deletePlaylists [lpRow "a" false "", lpRow "b" true ""] ["a", "b"]
      (fun _ => false)).unfollowCalls = [] ∧
    (deletePlaylists [lpRow "a" false "", lpRow "b" true ""] ["a", "b"]
      (fun _ => false)).db = [lpRow "a" false "", lpRow "b" true ""] ∧
    (∀ x, x ∈ (deletePlaylists [lpRow "a" false "", lpRow "b" true ""] ["a", "b"]
        (fun _ => false)).failed ↔
      x ∈ ["a", "b"] ∧ ∃ p ∈ [lpRow "a" false "", lpRow "b" true ""],
        p.spotify_id = x ∧ p.is_owner = false) :=
  delete_all_or_nothing_nonowned [lpRow "a" false "", lpRow "b" true ""]
    ["a", "b"] (fun _ => false)
    (by decide) (by decide)

theorem deleteLoop_calls_sub (uf : String → Bool) (l : List LocalPlaylist)
    (db : List LocalPlaylist) (x : String)
    (h : x ∈ (deleteLoop uf l db).unfollowCalls) :
    x ∈ l.map (fun p => p.spotify_id) := by
  induction l generalizing db with
  | nil => exact absurd h (List.not_mem_nil x)
  | cons p rest ih =>
    rw [deleteLoop] at h
    rw [List.map_cons]
    by_cases hp : uf p.spotify_id
    · rw [if_pos hp] at h
      rcases List.mem_cons.mp h with h2 | h2
      · exact h2 ▸ List.mem_cons_self _ _
      · exact List.mem_cons_of_mem _ (ih db h2)
    · rw [if_neg hp] at h
      rcases List.mem_cons.mp h with h2 | h2
      · exact h2 ▸ List.mem_cons_self _ _
      · exact List.mem_cons_of_mem _ (ih _ h2)

theorem deleteLoop_failed_sub (uf : String → Bool) (l : List LocalPlaylist)
    (db : List LocalPlaylist) (x : String)
    (h : x ∈ (deleteLoop uf l db).failed) :
    x ∈ l.map (fun p => p.spotify_id) := by
  induction l generalizing db with
  | nil => exact absurd h (List.not_mem_nil x)
  | cons p rest ih =>
    rw [deleteLoop] at h
    rw [List.map_cons]
    by_cases hp : uf p.spotify_id
    · rw [if_pos hp] at h
      rcases List.mem_cons.mp h with h2 | h2
      · exact h2 ▸ List.mem_cons_self _ _
      · exact List.mem_cons_of_mem _ (ih db h2)
    · rw [if_neg hp] at h
      exact List.mem_cons_of_mem _ (ih _ h)

theorem deleteLoop_deleted_le (uf : String → Bool) (l : List LocalPlaylist)
    (db : List LocalPlaylist) :
    (deleteLoop uf l db).deletedIds.length ≤ l.length := by
  induction l generalizing db with
  | nil => exact Nat.le_refl 0
  | cons p rest ih =>
    rw [deleteLoop, List.length_cons]
    by_cases hp : uf p.spotify_id
    · rw [if_pos hp]
      exact Nat.le_succ_of_le (ih db)
    · rw [if_neg hp]
      simpa using Nat.succ_le_succ (ih _)

/-- C10: delete silently ignores input ids with no cached record: no
remote unfollow call names such an id, it appears in neither the failed
list nor (via the deleted-count bound by the cached matches) the deleted
count, and the operation can still return success with a deleted count
strictly below the input length, as the closed instance with one cached
and one unknown id shows. -/
theorem delete_ignores_unknown_ids :
    (∀ (db : List LocalPlaylist) (playlistIds : List String) (uf : String → Bool)
      (id : String), id ∈ playlistIds → (∀ p ∈ db, p.spotify_id ≠ id) →
      id ∉ (deletePlaylists db playlistIds uf).unfollowCalls ∧
      id ∉ (deletePlaylists db playlistIds uf).failed ∧
      (deletePlaylists db playlistIds uf).deleted ≤
        (db.filter (fun p => playlistIds.contains p.spotify_id)).length) ∧
    ((deletePlaylists [lpRow "b" true ""] ["b", "ghost"] (fun _ => false)).success = true ∧
      (deletePlaylists [lpRow "b" true ""] ["b", "ghost"] (fun _ => false)).deleted = 1 ∧
      (deletePlaylists [lpRow "b" true ""] ["b", "ghost"] (fun _ => false)).failed = [] ∧
      (deletePlaylists [lpRow "b" true ""] ["b", "ghost"] (fun _ => false)).unfollowCalls
        = ["b"] ∧
      (deletePlaylists [lpRow "b" true ""] ["b", "ghost"]
        (fun _ => false)).deleted < (["b", "ghost"] : List String).length) := by
  constructor
  · intro db playlistIds uf id hin hnodb
    have hfilmap : ∀ x ∈ (db.filter (fun p => playlistIds.contains p.spotify_id)).map
        (fun p => p.spotify_id), x ≠ id := by
      intro x hx
      rcases List.mem_map.mp hx with ⟨p, hp, hpx⟩
      exact hpx ▸ hnodb p (List.mem_filter.mp hp).1
    rw [deletePlaylists]
    by_cases hempty : playlistIds.isEmpty
    · rw [if_pos hempty]
      exact ⟨List.not_mem_nil id, List.not_mem_nil id, Nat.zero_le _⟩
    · rw [if_neg hempty]
      by_cases howned : ((db.filter (fun p => playlistIds.contains p.spotify_id)).filter
          (fun p => !p.is_owner)).isEmpty
      · rw [if_pos howned]
        refine ⟨?_, ?_, ?_⟩
        · intro hmem
          exact hfilmap id (deleteLoop_calls_sub uf _ db id hmem) rfl
        · intro hmem
          exact hfilmap id (deleteLoop_failed_sub uf _ db id hmem) rfl
        · exact deleteLoop_deleted_le uf _ db
      · rw [if_neg howned]
        refine ⟨List.not_mem_nil id, ?_, Nat.zero_le _⟩
        intro hmem
        rcases List.mem_map.mp hmem with ⟨p, hp, hpx⟩
        exact hnodb p (List.mem_filter.mp (List.mem_filter.mp hp).1).1 hpx
  · exact ⟨by decide, by decide, by decide, by decide, by decide⟩

/-- Accumulator of the removeDuplicates scan: the kept unique URIs in
order, the seen set, and the duplicate count. -/
structure RdAcc where
  uniqueUris : List String
  seen : List String
  duplicateCount : Nat
deriving DecidableEq

/-- The scan of removeDuplicates over the track items: skip items with a
falsy track or URI, keep the first occurrence of each URI (adding it to the
seen set), and count every later occurrence as a duplicate without keeping
it. -/
def rdCollect : List PlaylistItem → List String → RdAcc
  | [], seen => ⟨[], seen, 0⟩
  | item :: rest, seen =>
    match extractUri item with
    | none => rdCollect rest seen
    | some uri =>
      if seen.contains uri then
        let r := rdCollect rest seen
        ⟨r.uniqueUris, r.seen, r.duplicateCount + 1⟩
      else
        let r := rdCollect rest (uri :: seen)
        ⟨uri :: r.uniqueUris, r.seen, r.duplicateCount⟩

theorem rdCollect_cons_none (item : PlaylistItem) (rest : List PlaylistItem)
    (seen : List String) (h : extractUri item = none) :
    rdCollect (item :: rest) seen = rdCollect rest seen := by
  rw [rdCollect, h]

theorem rdCollect_cons_seen (item : PlaylistItem) (rest : List PlaylistItem)
    (seen : List String) (uri : String) (h : extractUri item = some uri)
    (hc : seen.contains uri = true) :
    rdCollect (item :: rest) seen =
      ⟨(rdCollect rest seen).uniqueUris, (rdCollect rest seen).seen,
        (rdCollect rest seen).duplicateCount + 1⟩ := by
  rw [rdCollect, h]
  simp only [hc]
  rfl

theorem rdCollect_cons_fresh (item : PlaylistItem) (rest : List PlaylistItem)
    (seen : List String) (uri : String) (h : extractUri item = some uri)
    (hc : seen.contains uri = false) :
    rdCollect (item :: rest) seen =
      ⟨uri :: (rdCollect rest (uri :: seen)).uniqueUris,
        (rdCollect rest (uri :: seen)).seen,
        (rdCollect rest (uri :: seen)).duplicateCount⟩ := by
  rw [rdCollect, h]
  simp only [hc]
  rfl

/-- Result of removeDuplicates, with the remote calls recorded. -/
structure RemoveDupResult where
  success : Bool
  created : Bool
  appendedBatches : List (List String)
  originalCount : Nat
  uniqueCount : Nat
  duplicatesRemoved : Nat
deriving DecidableEq

/-- removeDuplicates (playlist-operations.ts): scan all track items,
keeping first occurrences per URI; zero duplicates fail the operation with
no playlist created; the unique URIs are then filtered for well-formedness
exactly as in merge, an empty valid list also fails, and otherwise a new
playlist is created and the valid unique URIs are appended in batches of
100. The reported counts are the fetched item count, the valid unique
count and the duplicate count. -/
def removeDuplicates (items : List PlaylistItem) : RemoveDupResult :=
  let r := rdCollect items []
  if r.duplicateCount = 0 then ⟨false, false, [], 0, 0, 0⟩
  else
    let validTrackUris := r.uniqueUris.filter (fun u => isValidTrackUri u)
    if validTrackUris.isEmpty then ⟨false, false, [], 0, 0, 0⟩
    else ⟨true, true, chunk100 validTrackUris, items.length,
      validTrackUris.length, r.duplicateCount⟩

theorem rdCollect_dup_zero (items : List PlaylistItem) (seen : List String)
    (hnd : (items.filterMap extractUri).Nodup)
    (hdisj : ∀ x ∈ items.filterMap extractUri, x ∉ seen) :
    (rdCollect items seen).duplicateCount = 0 := by
  induction items generalizing seen with
  | nil => rfl
  | cons item rest ih =>
    cases h : extractUri item with
    | none =>
      rw [rdCollect_cons_none item rest seen h]
      rw [List.filterMap_cons, h] at hnd hdisj
      exact ih seen hnd hdisj
    | some uri =>
      rw [List.filterMap_cons, h] at hnd hdisj
      have huri : uri ∉ seen := hdisj uri (List.mem_cons_self uri _)
      rw [rdCollect_cons_fresh item rest seen uri h
        (by simpa using huri)]
      refine ih (uri :: seen) (List.Nodup.of_cons hnd) ?_
      intro x hx hmem
      rcases List.mem_cons.mp hmem with h2 | h2
      · exact (List.nodup_cons.mp hnd).1 (h2 ▸ hx)
      · exact hdisj x (List.mem_cons_of_mem uri hx) h2

/-- The track items [A, B, A, C, B] by URI, all linked and well-formed. -/
def rdDemoItems : List PlaylistItem :=
  [⟨some ⟨some "i1", none, some "spotify:track:aaa"⟩⟩,
   ⟨some ⟨some "i2", none, some "spotify:track:bbb"⟩⟩,
   ⟨some ⟨some "i3", none, some "spotify:track:aaa"⟩⟩,
   ⟨some ⟨some "i4", none, some "spotify:track:ccc"⟩⟩,
   ⟨some ⟨some "i5", none, some "spotify:track:bbb"⟩⟩]

/-- C7: on a playlist whose items carry URIs [A, B, A, C, B] (all linked
and well-formed) removeDuplicates succeeds with unique sequence [A, B, C]
and two duplicates removed; and on any playlist whose linked track URIs
hold no duplicate, the operation reports failure and creates no remote
playlist. -/
theorem removeDuplicates_spec :
    ((removeDuplicates rdDemoItems).success = true ∧
      (removeDuplicates rdDemoItems).appendedBatches.flatten =
        ["spotify:track:aaa", "spotify:track:bbb", "spotify:track:ccc"] ∧
      (removeDuplicates rdDemoItems).duplicatesRemoved = 2 ∧
      (removeDuplicates rdDemoItems).originalCount = 5 ∧
      (removeDuplicates rdDemoItems).uniqueCount = 3) ∧
    (∀ items : List PlaylistItem, (items.filterMap extractUri).Nodup →
      (removeDuplicates items).success = false ∧
      (removeDuplicates items).created = false ∧
      (removeDuplicates items).appendedBatches = []) := by
  constructor
  · exact ⟨by decide, by decide, by decide, by decide, by decide⟩
  · intro items hnd
    have hzero : (rdCollect items []).duplicateCount = 0 :=
      rdCollect_dup_zero items [] hnd (fun x _ => List.not_mem_nil x)
    rw [removeDuplicates]
    simp only [hzero, if_pos rfl]
    exact ⟨rfl, rfl, rfl⟩

/-- Modelled from the spec: updatePlaylistName is part of the consumed
Cache Store interface (spec section 6) that the bulkRename loop calls, but
the database.ts in the repository snapshot stops before it; it sets the
cached name of the row with the given id (UPDATE playlists SET name WHERE
spotify_id), leaving every other row and field unchanged. -/
def updatePlaylistName (db : List LocalPlaylist) (id newName : String) :
    List LocalPlaylist :=
  db.map (fun p => if p.spotify_id = id then { p with name := newName } else p)

/-- State threaded through the bulkRename loop: the cache, the renamed
counter, the failed ids, the remote rename calls issued (failed ones
included) and the cache name updates performed. -/
structure RenameState where
  db : List LocalPlaylist
  renamed : Nat
  failed : List String
  renameCalls : List (String × String)
  dbUpdates : List (String × String)
deriving DecidableEq

/-- One iteration of the bulkRename loop (playlist-operations.ts), applied
to the cached lookup result of the current id: a missing record or a
non-owned record pushes the id to failed; an unchanged substituted name is
silently skipped; an empty-or-whitespace substituted name pushes the id to
failed; otherwise the remote rename call is issued, and on success the
cache name is updated and the renamed counter incremented, while a thrown
remote error (oracle rf) pushes the id to failed. -/
def bulkRenameCheck (subst : String → String) (rf : String → Bool)
    (st : RenameState) (id : String) : Option LocalPlaylist → RenameState
  | none => { st with failed := st.failed ++ [id] }
  | some p =>
    if p.is_owner = false then { st with failed := st.failed ++ [id] }
    else if subst p.name = p.name then st
    else if jsTrim (subst p.name) = "" then { st with failed := st.failed ++ [id] }
    else if rf id then
      { st with renameCalls := st.renameCalls ++ [(id, subst p.name)],
                failed := st.failed ++ [id] }
    else
      { st with renameCalls := st.renameCalls ++ [(id, subst p.name)],
                db := updatePlaylistName st.db id (subst p.name),
                dbUpdates := st.dbUpdates ++ [(id, subst p.name)],
                renamed := st.renamed + 1 }

/-- One iteration of the bulkRename loop on the current id: look the id up
in the cache (getPlaylistById: the first row with that spotify_id) and
dispatch. -/
def bulkRenameStep (subst : String → String) (rf : String → Bool)
    (st : RenameState) (id : String) : RenameState :=
  bulkRenameCheck subst rf st id (st.db.find? (fun p => p.spotify_id == id))

/-- bulkRename (playlist-operations.ts) after the up-front regex
validation: the compiled global substitution is the function subst (an
invalid pattern fails the whole operation before this loop, so the loop
always runs with a valid one), and the loop folds over the input ids from
a fresh counter/failed state over the given cache. -/
def bulkRename (subst : String → String) (rf : String → Bool)
    (playlistIds : List String) (db : List LocalPlaylist) : RenameState :=
  playlistIds.foldl (bulkRenameStep subst rf) ⟨db, 0, [], [], []⟩

theorem find?_updatePlaylistName_ne (db : List LocalPlaylist)
    (id id' newName : String) (h : id ≠ id') :
    (updatePlaylistName db id' newName).find? (fun p => p.spotify_id == id) =
      db.find? (fun p => p.spotify_id == id) := by
  induction db with
  | nil => rfl
  | cons q rest ih =>
    rw [updatePlaylistName, List.map_cons]
    by_cases hq : q.spotify_id = id
    · rw [if_neg (fun h2 => h (hq.symm.trans h2))]
      rw [List.find?_cons_of_pos _ (by simpa using hq),
        List.find?_cons_of_pos _ (by simpa using hq)]
    · by_cases hq' : q.spotify_id = id'
      · rw [if_pos hq']
        rw [List.find?_cons_of_neg _ (by simpa using hq),
          List.find?_cons_of_neg _ (by simpa using hq)]
        exact ih
      · rw [if_neg hq']
        rw [List.find?_cons_of_neg _ (by simpa using hq),
          List.find?_cons_of_neg _ (by simpa using hq)]
        exact ih

theorem bulkRenameStep_failed_cases (subst : String → String) (rf : String → Bool)
    (st : RenameState) (id' : String) :
    (bulkRenameStep subst rf st id').failed = st.failed ∨
    (bulkRenameStep subst rf st id').failed = st.failed ++ [id'] := by
  rw [bulkRenameStep]
  cases hf : st.db.find? (fun p => p.spotify_id == id') with
  | none => exact Or.inr rfl
  | some p =>
    rw [bulkRenameCheck]
    by_cases h1 : p.is_owner = false
    · rw [if_pos h1]; exact Or.inr rfl
    · rw [if_neg h1]
      by_cases h2 : subst p.name = p.name
      · rw [if_pos h2]; exact Or.inl rfl
      · rw [if_neg h2]
        by_cases h3 : jsTrim (subst p.name) = ""
        · rw [if_pos h3]; exact Or.inr rfl
        · rw [if_neg h3]
          by_cases h4 : rf id' = true
          · rw [if_pos h4]; exact Or.inr rfl
          · rw [if_neg h4]; exact Or.inl rfl

theorem bulkRenameStep_calls_cases (subst : String → String) (rf : String → Bool)
    (st : RenameState) (id' : String) :
    (bulkRenameStep subst rf st id').renameCalls = st.renameCalls ∨
    ∃ n, (bulkRenameStep subst rf st id').renameCalls = st.renameCalls ++ [(id', n)] := by
  rw [bulkRenameStep]
  cases hf : st.db.find? (fun p => p.spotify_id == id') with
  | none => exact Or.inl rfl
  | some p =>
    rw [bulkRenameCheck]
    by_cases h1 : p.is_owner = false
    · rw [if_pos h1]; exact Or.inl rfl
    · rw [if_neg h1]
      by_cases h2 : subst p.name = p.name
      · rw [if_pos h2]; exact Or.inl rfl
      · rw [if_neg h2]
        by_cases h3 : jsTrim (subst p.name) = ""
        · rw [if_pos h3]; exact Or.inl rfl
        · rw [if_neg h3]
          by_cases h4 : rf id' = true
          · rw [if_pos h4]; exact Or.inr ⟨subst p.name, rfl⟩
          · rw [if_neg h4]; exact Or.inr ⟨subst p.name, rfl⟩

theorem bulkRenameStep_updates_cases (subst : String → String) (rf : String → Bool)
    (st : RenameState) (id' : String) :
    (bulkRenameStep subst rf st id').dbUpdates = st.dbUpdates ∨
    ∃ n, (bulkRenameStep subst rf st id').dbUpdates = st.dbUpdates ++ [(id', n)] := by
  rw [bulkRenameStep]
  cases hf : st.db.find? (fun p => p.spotify_id == id') with
  | none => exact Or.inl rfl
  | some p =>
    rw [bulkRenameCheck]
    by_cases h1 : p.is_owner = false
    · rw [if_pos h1]; exact Or.inl rfl
    · rw [if_neg h1]
      by_cases h2 : subst p.name = p.name
      · rw [if_pos h2]; exact Or.inl rfl
      · rw [if_neg h2]
        by_cases h3 : jsTrim (subst p.name) = ""
        · rw [if_pos h3]; exact Or.inl rfl
        · rw [if_neg h3]
          by_cases h4 : rf id' = true
          · rw [if_pos h4]; exact Or.inl rfl
          · rw [if_neg h4]; exact Or.inr ⟨subst p.name, rfl⟩

theorem bulkRenameStep_db_cases (subst : String → String) (rf : String → Bool)
    (st : RenameState) (id' : String) :
    (bulkRenameStep subst rf st id').db = st.db ∨
    ∃ n, (bulkRenameStep subst rf st id').db = updatePlaylistName st.db id' n := by
  rw [bulkRenameStep]
  cases hf : st.db.find? (fun p => p.spotify_id == id') with
  | none => exact Or.inl rfl
  | some p =>
    rw [bulkRenameCheck]
    by_cases h1 : p.is_owner = false
    · rw [if_pos h1]; exact Or.inl rfl
    · rw [if_neg h1]
      by_cases h2 : subst p.name = p.name
      · rw [if_pos h2]; exact Or.inl rfl
      · rw [if_neg h2]
        by_cases h3 : jsTrim (subst p.name) = ""
        · rw [if_pos h3]; exact Or.inl rfl
        · rw [if_neg h3]
          by_cases h4 : rf id' = true
          · rw [if_pos h4]; exact Or.inl rfl
          · rw [if_neg h4]; exact Or.inr ⟨subst p.name, rfl⟩

theorem bulkRenameStep_renamed_invariant (subst : String → String)
    (rf : String → Bool) (st : RenameState) (id' : String)
    (h : st.renamed = st.dbUpdates.length) :
    (bulkRenameStep subst rf st id').renamed =
      (bulkRenameStep subst rf st id').dbUpdates.length := by
  rw [bulkRenameStep]
  cases hf : st.db.find? (fun p => p.spotify_id == id') with
  | none => exact h
  | some p =>
    rw [bulkRenameCheck]
    by_cases h1 : p.is_owner = false
    · rw [if_pos h1]; exact h
    · rw [if_neg h1]
      by_cases h2 : subst p.name = p.name
      · rw [if_pos h2]; exact h
      · rw [if_neg h2]
        by_cases h3 : jsTrim (subst p.name) = ""
        · rw [if_pos h3]; exact h
        · rw [if_neg h3]
          by_cases h4 : rf id' = true
          · rw [if_pos h4]; exact h
          · rw [if_neg h4]
            simp only [List.length_append, List.length_singleton, h]

theorem find?_updatePlaylistName_self (db : List LocalPlaylist)
    (id newName : String) (p : LocalPlaylist)
    (hf : db.find? (fun q => q.spotify_id == id) = some p) :
    (updatePlaylistName db id newName).find? (fun q => q.spotify_id == id) =
      some { p with name := newName } := by
  induction db with
  | nil => exact absurd hf (by simp)
  | cons q rest ih =>
    rw [updatePlaylistName, List.map_cons]
    by_cases hq : q.spotify_id = id
    · rw [if_pos hq]
      rw [List.find?_cons_of_pos _ (by simpa using hq)] at hf
      rw [List.find?_cons_of_pos _ (by simpa using hq)]
      rw [Option.some_inj.mp hf]
    · rw [if_neg hq]
      rw [List.find?_cons_of_neg _ (by simpa using hq)] at hf
      rw [List.find?_cons_of_neg _ (by simpa using hq)]
      exact ih hf

theorem bulkRenameStep_success (subst : String → String) (rf : String → Bool)
    (st : RenameState) (id : String) (p : LocalPlaylist)
    (hf : st.db.find? (fun q => q.spotify_id == id) = some p)
    (hown : p.is_owner = true) (hch : subst p.name ≠ p.name)
    (htr : jsTrim (subst p.name) ≠ "") (hrf : rf id = false) :
    bulkRenameStep subst rf st id =
      { st with renameCalls := st.renameCalls ++ [(id, subst p.name)],
                db := updatePlaylistName st.db id (subst p.name),
                dbUpdates := st.dbUpdates ++ [(id, subst p.name)],
                renamed := st.renamed + 1 } := by
  rw [bulkRenameStep, hf, bulkRenameCheck, if_neg (by simp [hown]), if_neg hch,
    if_neg htr, if_neg (by simp [hrf])]

theorem bulkRenameStep_wsname (subst : String → String) (rf : String → Bool)
    (st : RenameState) (id : String) (p : LocalPlaylist)
    (hf : st.db.find? (fun q => q.spotify_id == id) = some p)
    (hch : subst p.name ≠ p.name) (htr : jsTrim (subst p.name) = "") :
    bulkRenameStep subst rf st id = { st with failed := st.failed ++ [id] } := by
  rw [bulkRenameStep, hf, bulkRenameCheck]
  by_cases h1 : p.is_owner = false
  · rw [if_pos h1]
  · rw [if_neg h1, if_neg hch, if_pos htr]

theorem bulkRename_go_find_ne (subst : String → String) (rf : String → Bool)
    (l : List String) (st : RenameState) (id : String) (h : id ∉ l) :
    ((l.foldl (bulkRenameStep subst rf) st).db).find? (fun p => p.spotify_id == id) =
      st.db.find? (fun p => p.spotify_id == id) := by
  induction l generalizing st with
  | nil => rfl
  | cons a rest ih =>
    rw [List.foldl_cons]
    have hne : id ≠ a := fun he => h (he ▸ List.mem_cons_self a rest)
    have hrest : id ∉ rest := fun hm => h (List.mem_cons_of_mem a hm)
    rw [ih _ hrest]
    rcases bulkRenameStep_db_cases subst rf st a with hdb | ⟨n, hdb⟩
    · rw [hdb]
    · rw [hdb, find?_updatePlaylistName_ne st.db id a n hne]

theorem bulkRename_go_failed_sub (subst : String → String) (rf : String → Bool)
    (l : List String) (st : RenameState) (x : String)
    (h : x ∈ (l.foldl (bulkRenameStep subst rf) st).failed) :
    x ∈ st.failed ∨ x ∈ l := by
  induction l generalizing st with
  | nil => exact Or.inl h
  | cons a rest ih =>
    rw [List.foldl_cons] at h
    rcases ih _ h with h2 | h2
    · rcases bulkRenameStep_failed_cases subst rf st a with hc | hc
      · rw [hc] at h2
        exact Or.inl h2
      · rw [hc] at h2
        rcases List.mem_append.mp h2 with h3 | h3
        · exact Or.inl h3
        · rw [List.mem_singleton.mp h3]
          exact Or.inr (List.mem_cons_self a rest)
    · exact Or.inr (List.mem_cons_of_mem a h2)

theorem bulkRename_go_failed_mono (subst : String → String) (rf : String → Bool)
    (l : List String) (st : RenameState) (x : String) (h : x ∈ st.failed) :
    x ∈ (l.foldl (bulkRenameStep subst rf) st).failed := by
  induction l generalizing st with
  | nil => exact h
  | cons a rest ih =>
    rw [List.foldl_cons]
    refine ih _ ?_
    rcases bulkRenameStep_failed_cases subst rf st a with hc | hc
    · rw [hc]; exact h
    · rw [hc]; exact List.mem_append_left _ h

theorem bulkRename_go_calls_mono (subst : String → String) (rf : String → Bool)
    (l : List String) (st : RenameState) (pr : String × String)
    (h : pr ∈ st.renameCalls) :
    pr ∈ (l.foldl (bulkRenameStep subst rf) st).renameCalls := by
  induction l generalizing st with
  | nil => exact h
  | cons a rest ih =>
    rw [List.foldl_cons]
    refine ih _ ?_
    rcases bulkRenameStep_calls_cases subst rf st a with hc | ⟨n, hc⟩
    · rw [hc]; exact h
    · rw [hc]; exact List.mem_append_left _ h

theorem bulkRename_go_calls_sub (subst : String → String) (rf : String → Bool)
    (l : List String) (st : RenameState) (pr : String × String)
    (h : pr ∈ (l.foldl (bulkRenameStep subst rf) st).renameCalls) :
    pr ∈ st.renameCalls ∨ pr.1 ∈ l := by
  induction l generalizing st with
  | nil => exact Or.inl h
  | cons a rest ih =>
    rw [List.foldl_cons] at h
    rcases ih _ h with h2 | h2
    · rcases bulkRenameStep_calls_cases subst rf st a with hc | ⟨n, hc⟩
      · rw [hc] at h2
        exact Or.inl h2
      · rw [hc] at h2
        rcases List.mem_append.mp h2 with h3 | h3
        · exact Or.inl h3
        · rw [List.mem_singleton.mp h3]
          exact Or.inr (List.mem_cons_self a rest)
    · exact Or.inr (List.mem_cons_of_mem a h2)

theorem bulkRename_go_updates_mono (subst : String → String) (rf : String → Bool)
    (l : List String) (st : RenameState) (pr : String × String)
    (h : pr ∈ st.dbUpdates) :
    pr ∈ (l.foldl (bulkRenameStep subst rf) st).dbUpdates := by
  induction l generalizing st with
  | nil => exact h
  | cons a rest ih =>
    rw [List.foldl_cons]
    refine ih _ ?_
    rcases bulkRenameStep_updates_cases subst rf st a with hc | ⟨n, hc⟩
    · rw [hc]; exact h
    · rw [hc]; exact List.mem_append_left _ h

theorem bulkRename_go_updates_sub (subst : String → String) (rf : String → Bool)
    (l : List String) (st : RenameState) (pr : String × String)
    (h : pr ∈ (l.foldl (bulkRenameStep subst rf) st).dbUpdates) :
    pr ∈ st.dbUpdates ∨ pr.1 ∈ l := by
  induction l generalizing st with
  | nil => exact Or.inl h
  | cons a rest ih =>
    rw [List.foldl_cons] at h
    rcases ih _ h with h2 | h2
    · rcases bulkRenameStep_updates_cases subst rf st a with hc | ⟨n, hc⟩
      · rw [hc] at h2
        exact Or.inl h2
      · rw [hc] at h2
        rcases List.mem_append.mp h2 with h3 | h3
        · exact Or.inl h3
        · rw [List.mem_singleton.mp h3]
          exact Or.inr (List.mem_cons_self a rest)
    · exact Or.inr (List.mem_cons_of_mem a h2)

theorem bulkRename_go_renamed (subst : String → String) (rf : String → Bool)
    (l : List String) (st : RenameState) (h : st.renamed = st.dbUpdates.length) :
    (l.foldl (bulkRenameStep subst rf) st).renamed =
      ((l.foldl (bulkRenameStep subst rf) st).dbUpdates).length := by
  induction l generalizing st with
  | nil => exact h
  | cons a rest ih =>
    rw [List.foldl_cons]
    exact ih _ (bulkRenameStep_renamed_invariant subst rf st a h)

/-- C4: a bulk-rename target playlist that is cached, owner-flagged, whose
substitution changes the name to a non-empty non-whitespace one, and whose
remote rename call does not throw, gets the remote rename call issued with
the new name, its cached name updated to that same new name, is not in the
failed list, and is counted in the renamed count: its cache update is one
of the dbUpdates whose number the renamed counter equals. -/
theorem bulkRename_success_path (subst : String → String) (rf : String → Bool)
    (playlistIds : List String) (db : List LocalPlaylist) (id : String)
    (p : LocalPlaylist)
    (hnd : playlistIds.Nodup) (hin : id ∈ playlistIds)
    (hf : db.find? (fun q => q.spotify_id == id) = some p)
    (hown : p.is_owner = true) (hch : subst p.name ≠ p.name)
    (htr : jsTrim (subst p.name) ≠ "") (hrf : rf id = false) :
    (id, subst p.name) ∈ (bulkRename subst rf playlistIds db).renameCalls ∧
    (id, subst p.name) ∈ (bulkRename subst rf playlistIds db).dbUpdates ∧
    id ∉ (bulkRename subst rf playlistIds db).failed ∧
    ((bulkRename subst rf playlistIds db).db).find? (fun q => q.spotify_id == id) =
      some { p with name := subst p.name } ∧
    (bulkRename subst rf playlistIds db).renamed =
      ((bulkRename subst rf playlistIds db).dbUpdates).length := by
  obtain ⟨pre, post, rfl⟩ := List.append_of_mem hin
  have hdisj : pre.Disjoint (id :: post) := List.disjoint_of_nodup_append hnd
  have hpre : id ∉ pre := fun hm => hdisj hm (List.mem_cons_self id post)
  have hpost : id ∉ post :=
    (List.nodup_cons.mp (List.Nodup.of_append_right hnd)).1
  have hren : (bulkRename subst rf (pre ++ id :: post) db).renamed =
      ((bulkRename subst rf (pre ++ id :: post) db).dbUpdates).length :=
    bulkRename_go_renamed subst rf (pre ++ id :: post) ⟨db, 0, [], [], []⟩ rfl
  rw [bulkRename, List.foldl_append, List.foldl_cons]
  have hfind1 : ((pre.foldl (bulkRenameStep subst rf) ⟨db, 0, [], [], []⟩).db).find?
      (fun q => q.spotify_id == id) = some p := by
    rw [bulkRename_go_find_ne subst rf pre ⟨db, 0, [], [], []⟩ id hpre]
    exact hf
  rw [bulkRenameStep_success subst rf _ id p hfind1 hown hch htr hrf]
  refine ⟨?_, ?_, ?_, ?_, ?_⟩
  · exact bulkRename_go_calls_mono subst rf post _ _
      (List.mem_append_right _ (List.mem_singleton.mpr rfl))
  · exact bulkRename_go_updates_mono subst rf post _ _
      (List.mem_append_right _ (List.mem_singleton.mpr rfl))
  · intro hmem
    rcases bulkRename_go_failed_sub subst rf post _ id hmem with h2 | h2
    · rcases bulkRename_go_failed_sub subst rf pre _ id h2 with h3 | h3
      · exact absurd h3 (List.not_mem_nil id)
      · exact hpre h3
    · exact hpost h2
  · rw [bulkRename_go_find_ne subst rf post _ id hpost]
    exact find?_updatePlaylistName_self _ id (subst p.name) p hfind1
  · rw [bulkRename, List.foldl_append, List.foldl_cons,
      bulkRenameStep_success subst rf _ id p hfind1 hown hch htr hrf] at hren
    exact hren

/-- The substitution induced by the regex rename pattern Old -> New with
the global flag, as a Lean function (String.replace replaces every
occurrence, as the g flag does for a literal pattern). -/
def renameDemoSubst (s : String) : String :=
  if s = "Old Mix" then "New Mix" else s

/-- Closed instance of the C4 bulk-rename theorem: one cached owned
playlist named Old Mix renamed by a literal Old-Mix-to-New-Mix pattern. -/
theorem bulkRename_success_path_app :
    ("p1", renameDemoSubst "Old Mix") ∈
      (bulkRename renameDemoSubst (fun _ => false) ["p1"]
        [{ lpRow "p1" true "" with name := "Old Mix" }]).renameCalls ∧
    ("p1", renameDemoSubst "Old Mix") ∈
      (bulkRename renameDemoSubst (fun _ => false) ["p1"]
        [{ lpRow "p1" true "" with name := "Old Mix" }]).dbUpdates ∧
    "p1" ∉ (bulkRename renameDemoSubst (fun _ => false) ["p1"]
        [{ lpRow "p1" true "" with name := "Old Mix" }]).failed ∧
    ((bulkRename renameDemoSubst (fun _ => false) ["p1"]
        [{ lpRow "p1" true "" with name := "Old Mix" }]).db).find?
        (fun q => q.spotify_id == "p1") =
      some { { lpRow "p1" true "" with name := "Old Mix" } with
        name := renameDemoSubst "Old Mix" } ∧
    (bulkRename renameDemoSubst (fun _ => false) ["p1"]
        [{ lpRow "p1" true "" with name := "Old Mix" }]).renamed =
      ((bulkRename renameDemoSubst (fun _ => false) ["p1"]
        [{ lpRow "p1" true "" with name := "Old Mix" }]).dbUpdates).length := by
  have h := bulkRename_success_path renameDemoSubst (fun _ => false) ["p1"]
    [{ lpRow "p1" true "" with name := "Old Mix" }] "p1"
    { lpRow "p1" true "" with name := "Old Mix" }
    (by decide) (by decide) (by decide) (by decide) (by decide) (by decide) rfl
  exact h

/-- C8 counterexample input: an owned cached playlist whose name is
already a single space, with the identity substitution (for example the
literal pattern x -> x: a global replace that does not occur in the name).
The substitution result is whitespace-only, yet the loop hits the
no-change check first and silently skips, so the id lands in neither
failed nor any other output. -/
theorem bulkRename_ws_noChange_cex :
    jsTrim (id (" " : String)) = "" ∧
    (bulkRename id (fun _ => false) ["p1"]
      [{ lpRow "p1" true "" with name := " " }]).failed = [] ∧
    (bulkRename id (fun _ => false) ["p1"]
      [{ lpRow "p1" true "" with name := " " }]).renameCalls = [] ∧
    (bulkRename id (fun _ => false) ["p1"]
      [{ lpRow "p1" true "" with name := " " }]).db =
      [{ lpRow "p1" true "" with name := " " }] := by
  exact ⟨by decide, by decide, by decide, by decide⟩

/-- C8 (amended): a bulk-rename target playlist that is cached and for
which the substitution produces an empty or whitespace-only name different
from its current name is counted in the failed list, no remote rename call
is issued for it, its cache row is untouched (so remote and cached names
stay unchanged); when the whitespace-only result equals the current name
the playlist is silently skipped by the no-change check instead. -/
theorem bulkRename_wsname_failed (subst : String → String) (rf : String → Bool)
    (playlistIds : List String) (db : List LocalPlaylist) (id : String)
    (p : LocalPlaylist)
    (hnd : playlistIds.Nodup) (hin : id ∈ playlistIds)
    (hf : db.find? (fun q => q.spotify_id == id) = some p)
    (hch : subst p.name ≠ p.name) (htr : jsTrim (subst p.name) = "") :
    id ∈ (bulkRename subst rf playlistIds db).failed ∧
    (∀ n, (id, n) ∉ (bulkRename subst rf playlistIds db).renameCalls) ∧
    (∀ n, (id, n) ∉ (bulkRename subst rf playlistIds db).dbUpdates) ∧
    ((bulkRename subst rf playlistIds db).db).find? (fun q => q.spotify_id == id) =
      some p := by
  obtain ⟨pre, post, rfl⟩ := List.append_of_mem hin
  have hdisj : pre.Disjoint (id :: post) := List.disjoint_of_nodup_append hnd
  have hpre : id ∉ pre := fun hm => hdisj hm (List.mem_cons_self id post)
  have hpost : id ∉ post :=
    (List.nodup_cons.mp (List.Nodup.of_append_right hnd)).1
  rw [bulkRename, List.foldl_append, List.foldl_cons]
  have hfind1 : ((pre.foldl (bulkRenameStep subst rf) ⟨db, 0, [], [], []⟩).db).find?
      (fun q => q.spotify_id == id) = some p := by
    rw [bulkRename_go_find_ne subst rf pre ⟨db, 0, [], [], []⟩ id hpre]
    exact hf
  rw [bulkRenameStep_wsname subst rf _ id p hfind1 hch htr]
  refine ⟨?_, ?_, ?_, ?_⟩
  · exact bulkRename_go_failed_mono subst rf post _ id
      (List.mem_append_right _ (List.mem_singleton.mpr rfl))
  · intro n hmem
    rcases bulkRename_go_calls_sub subst rf post _ (id, n) hmem with h2 | h2
    · rcases bulkRename_go_calls_sub subst rf pre _ (id, n) h2 with h3 | h3
      · exact absurd h3 (List.not_mem_nil (id, n))
      · exact hpre h3
    · exact hpost h2
  · intro n hmem
    rcases bulkRename_go_updates_sub subst rf post _ (id, n) hmem with h2 | h2
    · rcases bulkRename_go_updates_sub subst rf pre _ (id, n) h2 with h3 | h3
      · exact absurd h3 (List.not_mem_nil (id, n))
      · exact hpre h3
    · exact hpost h2
  · rw [bulkRename_go_find_ne subst rf post _ id hpost]
    exact hfind1

/-- The substitution induced by the literal global pattern ab -> empty
replacement. -/
def renameWsSubst (s : String) : String :=
  if s = "ab" then "" else s

/-- Closed instance of the amended C8 theorem: an owned cached playlist
named ab with a pattern erasing the whole name. -/
theorem bulkRename_wsname_failed_app :
    "p1" ∈ (bulkRename renameWsSubst (fun _ => false) ["p1"]
      [{ lpRow "p1" true "" with name := "ab" }]).failed ∧
    (∀ n, ("p1", n) ∉ (bulkRename renameWsSubst (fun _ => false) ["p1"]
      [{ lpRow "p1" true "" with name := "ab" }]).renameCalls) ∧
    (∀ n, ("p1", n) ∉ (bulkRename renameWsSubst (fun _ => false) ["p1"]
      [{ lpRow "p1" true "" with name := "ab" }]).dbUpdates) ∧
    ((bulkRename renameWsSubst (fun _ => false) ["p1"]
      [{ lpRow "p1" true "" with name := "ab" }]).db).find?
        (fun q => q.spotify_id == "p1") =
      some { lpRow "p1" true "" with name := "ab" } := by
  have h := bulkRename_wsname_failed renameWsSubst (fun _ => false) ["p1"]
    [{ lpRow "p1" true "" with name := "ab" }] "p1"
    { lpRow "p1" true "" with name := "ab" }
    (by decide) (by decide) (by decide) (by decide) (by decide)
  exact h

/-- The owner object of a remote playlist summary, read defensively. -/
structure OwnerObj where
  id : Option String
  display_name : Option String
deriving DecidableEq

/-- A remote playlist summary as the listing endpoint returns it and
convertToLocalPlaylist reads it (playlist-sync.ts): all nested fields
accessed with optional chaining and fallbacks. -/
structure SpotifyPlaylistSummary where
  id : String
  name : String
  owner : Option OwnerObj
  tracksTotal : Option Nat
  followersTotal : Option Nat
  snapshot_id : String
deriving DecidableEq

/-- JavaScript a-or-default over an optional string: the default is taken
when the value is absent or the empty string (falsy). -/
def jsStrOr (a : Option String) (dflt : String) : String :=
  match a with
  | none => dflt
  | some s => if s = "" then dflt else s

/-- convertToLocalPlaylist (playlist-sync.ts): the current user id is the
source expression getAccessToken-query-empty-colon-empty, a placeholder
that is the empty string on both branches (the source comment says it
will be set properly, and the getCurrentUserId method that would fetch it
is never called here); is_owner compares the remote owner id against that
placeholder with strict equality; tags is always set to the empty string;
duration defaults to zero when absent. -/
def convertToLocalPlaylist (hasAccessToken : Bool) (now : Nat)
    (p : SpotifyPlaylistSummary) (duration : Option Nat) : LocalPlaylist :=
  let currentUserId : String := if hasAccessToken then "" else ""
  let isOwner : Bool :=
    match p.owner.bind (fun o => o.id) with
    | none => false
    | some oid => oid == currentUserId
  { spotify_id := p.id
    name := p.name
    owner := jsStrOr (p.owner.bind (fun o => o.display_name))
      (jsStrOr (p.owner.bind (fun o => o.id)) "Unknown")
    track_count := p.tracksTotal.getD 0
    duration_ms := duration.getD 0
    followers := p.followersTotal.getD 0
    is_owner := isOwner
    created_at := ""
    modified_at := ""
    tags := ""
    last_synced := now
    snapshot_id := p.snapshot_id
    unlinked_count := 0 }

/-- upsertPlaylist (database.ts): INSERT OR REPLACE by primary key — every
existing row with the same spotify_id is replaced by the new row, all
thirteen columns included. -/
def upsertPlaylist (db : List LocalPlaylist) (p : LocalPlaylist) :
    List LocalPlaylist :=
  db.filter (fun q => q.spotify_id != p.spotify_id) ++ [p]

/-- Result of the listing-pass sync, with the cache state and the number
of remote current-user lookups recorded. -/
structure SyncResult where
  total : Nat
  synced : Nat
  db : List LocalPlaylist
  getMeCalls : Nat
deriving DecidableEq

/-- syncAllPlaylists (playlist-sync.ts): every page of the listing is
converted and collected, then each converted record is upserted; the
returned total and synced both equal the listing length. The listing is
given as the concatenation of all pages. The pass issues no
current-user remote call (getMe is only reachable through the unused
getCurrentUserId method), recorded as getMeCalls = 0. -/
def syncAllPlaylists (hasAccessToken : Bool) (now : Nat)
    (listing : List SpotifyPlaylistSummary) (db : List LocalPlaylist) :
    SyncResult :=
  let allPlaylists := listing.map
    (fun p => convertToLocalPlaylist hasAccessToken now p none)
  ⟨allPlaylists.length, allPlaylists.length, allPlaylists.foldl upsertPlaylist db, 0⟩

/-- A concrete remote summary whose owner is the authenticated user
(conceptually user alice). -/
def syncDemoSummary : SpotifyPlaylistSummary :=
  ⟨"pl1", "My Mix", some ⟨some "alice", some "Alice"⟩, some 5, none, "snap1"⟩

/-- C5 evidence: convertToLocalPlaylist never equals the stored owner flag
to a real user identity: with a valid token and a playlist owned by the
authenticated user alice the flag computes to false, the flag is true
exactly for an empty remote owner id (the placeholder the source compares
against), and a listing sync issues zero remote current-user calls instead
of the one per sync the spec requires. -/
theorem sync_owner_flag_stub :
    (convertToLocalPlaylist true 0 syncDemoSummary none).is_owner = false ∧
    (convertToLocalPlaylist true 0
      { syncDemoSummary with owner := some ⟨some "", none⟩ } none).is_owner = true ∧
    (syncAllPlaylists true 0 [syncDemoSummary] []).getMeCalls = 0 :=
  ⟨by decide, by decide, by decide⟩

theorem upsert_foldl_mem (locals : List LocalPlaylist) (db : List LocalPlaylist)
    (q : LocalPlaylist) (h : q ∈ locals.foldl upsertPlaylist db) :
    q ∈ locals ∨ (q ∈ db ∧ q.spotify_id ∉ locals.map (fun r => r.spotify_id)) := by
  induction locals generalizing db with
  | nil => exact Or.inr ⟨h, by simp⟩
  | cons l rest ih =>
    rw [List.foldl_cons] at h
    rcases ih (upsertPlaylist db l) h with h2 | ⟨h2, h3⟩
    · exact Or.inl (List.mem_cons_of_mem l h2)
    · rcases List.mem_append.mp h2 with h4 | h4
      · have hfil := List.mem_filter.mp h4
        refine Or.inr ⟨hfil.1, ?_⟩
        rw [List.map_cons]
        intro hm
        rcases List.mem_cons.mp hm with h5 | h5
        · exact (by simpa using hfil.2 : ¬ q.spotify_id = l.spotify_id) h5
        · exact h3 h5
      · rw [List.mem_singleton.mp h4]
        exact Or.inl (List.mem_cons_self l rest)

theorem upsert_foldl_preserve (locals : List LocalPlaylist)
    (db : List LocalPlaylist) (q : LocalPlaylist) (h : q ∈ db)
    (hnot : q.spotify_id ∉ locals.map (fun r => r.spotify_id)) :
    q ∈ locals.foldl upsertPlaylist db := by
  induction locals generalizing db with
  | nil => exact h
  | cons l rest ih =>
    rw [List.map_cons] at hnot
    rw [List.foldl_cons]
    refine ih (upsertPlaylist db l)
      (List.mem_append_left _ (List.mem_filter.mpr ⟨h, ?_⟩))
      (fun hm => hnot (List.mem_cons_of_mem _ hm))
    simpa using fun he => hnot (List.mem_cons.mpr (Or.inl he))

/-- C6 counterexample: a cached row for pl1 carrying the user tags rock
chill goes through one listing sync that lists pl1; afterwards the cached
row for pl1 has the empty tag string — the listing sync wiped the tags. -/
theorem sync_tags_wiped_cex :
    (lpRow "pl1" true "rock chill").tags = "rock chill" ∧
    (((syncAllPlaylists true 7 [syncDemoSummary]
        [{ lpRow "pl1" true "rock chill" with name := "My Mix" }]).db.find?
      (fun p => p.spotify_id == "pl1")).map (fun p => p.tags)) = some "" :=
  ⟨by decide, by decide⟩

/-- C6 (amended): the listing-pass sync overwrites the tags of every
cached row whose playlist appears in the listing with the empty string
(the sync upsert replaces the whole row and the conversion always carries
empty tags); only rows whose playlist is absent from the listing keep
their record, tags included. -/
theorem sync_tags_overwrite (hasAccessToken : Bool) (now : Nat)
    (listing : List SpotifyPlaylistSummary) (db : List LocalPlaylist) :
    (∀ p ∈ (syncAllPlaylists hasAccessToken now listing db).db,
      p.spotify_id ∈ listing.map (fun s => s.id) → p.tags = "") ∧
    (∀ p ∈ db, p.spotify_id ∉ listing.map (fun s => s.id) →
      p ∈ (syncAllPlaylists hasAccessToken now listing db).db) := by
  have hids : (listing.map
      (fun p => convertToLocalPlaylist hasAccessToken now p none)).map
        (fun r => r.spotify_id) = listing.map (fun s => s.id) := by
    rw [List.map_map]
    rfl
  constructor
  · intro p hp hin
    rcases upsert_foldl_mem _ db p hp with h2 | ⟨_, h3⟩
    · rcases List.mem_map.mp h2 with ⟨s, _, hconv⟩
      rw [← hconv]
      rfl
    · rw [hids] at h3
      exact absurd hin h3
  · intro p hp hnot
    refine upsert_foldl_preserve _ db p hp ?_
    rw [hids]
    exact hnot

end SpotifyPP
